import Mathlib

/-!
Verification of the SIP header model of `headers.go` (package gossip).

The Go source is shallowly embedded: Go `map[string]*string` parameter
collections become association lists from parameter name to optional value
(Go maps never hold duplicate keys, so that invariant appears as the
explicit `keysNodup` hypothesis where a property depends on it); nilable
pointer fields become `Option`; `uint16`/`uint32` values become `Nat`;
interface dispatch over the two URI variants becomes a sum type `Uri`.
The `String()` methods keep their Go names (`SipUri.String`, and so on).
-/

/-- Go `map[string]*string`: a parameter collection, embedded as an
association list from parameter name to optional parameter value
(`none` models a nil value pointer: a flag parameter with no value). -/
abbrev Params := List (String × Option String)

/-- Modelled from the spec: the helper `strPtrEq` is defined in this
repository outside `headers.go`; per the spec, optional strings are equal
when absence matches absence, and otherwise when the strings are equal. -/
def strPtrEq : Option String → Option String → Bool
  | none, none => true
  | some a, some b => a == b
  | _, _ => false

/-- Modelled from the spec: the helper `uint16PtrEq` is defined in this
repository outside `headers.go`; per the spec, optional ports are equal
when absence matches absence, and otherwise under numeric equality. -/
def uint16PtrEq : Option Nat → Option Nat → Bool
  | none, none => true
  | some a, some b => a == b
  | _, _ => false

/-- Modelled from the spec: the constant `ABNF_WS` is defined in this
repository outside `headers.go`; per the spec, the whitespace set used for
quoting decisions is space, tab, CR, LF. -/
def ABNF_WS : List Char := [' ', '\t', '\r', '\n']

/-- Go `strings.ContainsAny(s, chars)`: true when some character of `s`
is one of `chars`. -/
def containsAny (s : String) (chars : List Char) : Bool :=
  s.data.any fun c => chars.contains c

/-- One entry of the `ParamsToString` loop body: `key` when the value is
nil, `key="value"` when the value contains ABNF whitespace, else
`key=value`. -/
def paramEntryString (key : String) (value : Option String) : String :=
  match value with
  | none => key
  | some v =>
    if containsAny v ABNF_WS then key ++ "=\"" ++ v ++ "\""
    else key ++ "=" ++ v

/-- The loop of Go `ParamsToString`: `buffer` is the `bytes.Buffer`,
`first` the flag selecting the start character over the separator. -/
def paramsToStringAux (start sep : Char) : Params → String → Bool → String
  | [], buffer, _ => buffer
  | kv :: rest, buffer, first =>
    let buffer := buffer ++ (if first then String.singleton start else String.singleton sep)
    let buffer := buffer ++ paramEntryString kv.1 kv.2
    paramsToStringAux start sep rest buffer false

/-- Go `ParamsToString(params, start, sep)`. -/
def ParamsToString (params : Params) (start sep : Char) : String :=
  paramsToStringAux start sep params "" true

/-- Go `paramsEqual(a, b)`: false when the lengths differ, else every key
of `a` must be present in `b` with a `strPtrEq`-equal value. -/
def paramsEqual (a b : Params) : Bool :=
  if a.length != b.length then false
  else a.all fun kv =>
    match b.lookup kv.1 with
    | none => false
    | some bval => strPtrEq kv.2 bval

/-- Go `SipUri`: a SIP or SIPS URI. Pointer fields are `Option`s; the
`uint16` port is a `Nat`. -/
structure SipUri where
  IsEncrypted : Bool
  User : Option String
  Password : Option String
  Host : String
  Port : Option Nat
  UriParams : Params
  Headers : Params

/-- The two URI variants that implement Go's `Uri`/`ContactUri`
interfaces in `headers.go`: `*SipUri` and `*WildcardUri` (a field-less
struct, so the variant carries no data). -/
inductive Uri where
  | sip (uri : SipUri)
  | wildcard

/-- Go `(*SipUri).IsWildcard()`: always false. -/
def SipUri.IsWildcard (_ : SipUri) : Bool :=
  false

/-- Go `(*SipUri).Equals(otherUri)`: the type switch on `*SipUri` becomes
a match on the `Uri` variant. -/
def SipUri.Equals (uri : SipUri) (otherUri : Uri) : Bool :=
  match otherUri with
  | Uri.wildcard => false
  | Uri.sip other =>
    let result :=
      uri.IsEncrypted == other.IsEncrypted &&
      strPtrEq uri.User other.User &&
      strPtrEq uri.Password other.Password &&
      uri.Host == other.Host &&
      uint16PtrEq uri.Port other.Port
    if !result then false
    else if !paramsEqual uri.UriParams other.UriParams then false
    else if !paramsEqual uri.Headers other.Headers then false
    else true

/-- Go `(*SipUri).String()`; `strconv.Itoa` on the port is `Nat.repr`. -/
def SipUri.String (uri : SipUri) : String :=
  (if uri.IsEncrypted then "sips" ++ ":" else "sip" ++ ":")
  ++ (match uri.User with
      | some user =>
        user
        ++ (match uri.Password with
            | some password => ":" ++ password
            | none => "")
        ++ "@"
      | none => "")
  ++ uri.Host
  ++ (match uri.Port with
      | some port => ":" ++ Nat.repr port
      | none => "")
  ++ ParamsToString uri.UriParams ';' ';'
  ++ ParamsToString uri.Headers '?' '&'

/-- Go `(*WildcardUri).IsWildcard()`: always true. -/
def WildcardUri.IsWildcard : Bool :=
  true

/-- Go `(*WildcardUri).String()`: always `*`. -/
def WildcardUri.String : String :=
  "*"

/-- Go `(*WildcardUri).Equals(other)`: the type switch returns true
exactly on `*WildcardUri`. -/
def WildcardUri.Equals (other : Uri) : Bool :=
  match other with
  | Uri.wildcard => true
  | Uri.sip _ => false

/-- Dynamic dispatch of `Equals` over the two `Uri` variants. -/
def Uri.Equals : Uri → Uri → Bool
  | Uri.sip uri, other => SipUri.Equals uri other
  | Uri.wildcard, other => WildcardUri.Equals other

/-- Dynamic dispatch of `String` over the two `Uri` variants. -/
def Uri.String : Uri → String
  | Uri.sip uri => SipUri.String uri
  | Uri.wildcard => WildcardUri.String

/-- Dynamic dispatch of `IsWildcard` over the two `Uri` variants. -/
def Uri.IsWildcard : Uri → Bool
  | Uri.sip uri => SipUri.IsWildcard uri
  | Uri.wildcard => WildcardUri.IsWildcard

/-- Go `ContactHeader`. -/
structure ContactHeader where
  displayName : Option String
  uri : Uri
  params : Params

/-- Go `(*ContactHeader).String()`: the wildcard URI renders bare, any
other URI inside angle brackets. -/
def ContactHeader.String (contact : ContactHeader) : String :=
  "Contact: "
  ++ (match contact.displayName with
      | some name => "\"" ++ name ++ "\" "
      | none => "")
  ++ (match contact.uri with
      | Uri.wildcard => "*"
      | Uri.sip uri => "<" ++ SipUri.String uri ++ ">")
  ++ ParamsToString contact.params ';' ';'

/-- Go `ViaHop`. -/
structure ViaHop where
  protocolName : String
  protocolVersion : String
  transport : String
  host : String
  port : Option Nat
  params : Params

/-- Go `(*ViaHop).String()`. -/
def ViaHop.String (entry : ViaHop) : String :=
  entry.protocolName ++ "/" ++ entry.protocolVersion ++ "/" ++ entry.transport
  ++ " " ++ entry.host
  ++ (match entry.port with
      | some port => ":" ++ Nat.repr port
      | none => "")
  ++ ParamsToString entry.params ';' ';'

/-- Go `ViaHeader`: a slice of hops. -/
abbrev ViaHeader := List ViaHop

/-- The loop of Go `ViaHeader.String()`: each hop rendered, with `, `
written after every hop except the last. -/
def viaHopsString : List ViaHop → String
  | [] => ""
  | [entry] => ViaHop.String entry
  | entry :: rest => ViaHop.String entry ++ ", " ++ viaHopsString rest

/-- Go `ViaHeader.String()`. -/
def ViaHeader.String (via : ViaHeader) : String :=
  "Via: " ++ viaHopsString via

/-- Go `type CallId string`. -/
abbrev CallId := String

/-- Go `(*CallId).String()`. -/
def CallId.String (callId : CallId) : String :=
  "Call-Id: " ++ callId

/-- The keys of a parameter collection. -/
abbrev keys (params : Params) : List String :=
  params.map Prod.fst

/-- The Go-map invariant of a parameter collection: keys are unique. -/
abbrev keysNodup (params : Params) : Prop :=
  (keys params).Nodup

/-- Join a list of strings with a separator between entries: no leading
and no trailing separator (spec-side description of rendering). -/
def joinSep (sep : String) : List String → String
  | [] => ""
  | [x] => x
  | x :: xs => x ++ sep ++ joinSep sep xs

/-- Modelled from the spec: split a character list at every occurrence of
the separator character (the pieces between separators, in order). -/
def splitOnChar (sep : Char) : List Char → List (List Char)
  | [] => [[]]
  | c :: cs =>
    if c = sep then [] :: splitOnChar sep cs
    else
      match splitOnChar sep cs with
      | [] => [[c]]
      | piece :: pieces => (c :: piece) :: pieces

/-- Modelled from the spec: join pieces with the separator character
between them (the inverse direction of `splitOnChar`). -/
def intercalateChar (sep : Char) : List (List Char) → List Char
  | [] => []
  | [piece] => piece
  | piece :: pieces => piece ++ sep :: intercalateChar sep pieces

/-- Modelled from the spec: split one rendered entry at its first `=`:
no `=` means a flag parameter (absent value), otherwise the part before
the first `=` is the key and the part after it the value. -/
def splitAtEq : List Char → List Char × Option (List Char)
  | [] => ([], none)
  | c :: cs =>
    if c = '=' then ([], some cs)
    else
      let rest := splitAtEq cs
      (c :: rest.1, rest.2)

/-- A character list of length at least two that starts and ends with a
double quote. -/
def quoteWrapped (l : List Char) : Bool :=
  decide (2 ≤ l.length) && (l.head? == some '"') && (l.getLast? == some '"')

/-- Modelled from the spec: remove one layer of surrounding double quotes
from a recovered value (rendering double-quotes values that contain ABNF
whitespace). -/
def unquote (l : List Char) : List Char :=
  if quoteWrapped l then (l.drop 1).dropLast else l

/-- Modelled from the spec: recover one entry from one rendered piece —
split it at its first `=` and remove one layer of surrounding double
quotes from the value, if any. -/
def recoverPiece (piece : List Char) : String × Option String :=
  let kv := splitAtEq piece
  (String.mk kv.1, kv.2.map fun v => String.mk (unquote v))

/-- Modelled from the spec: re-split a rendered parameter collection —
drop the start character, split on the separator, and recover an entry
from each piece. -/
def recoverParams (s : String) (sep : Char) : Params :=
  match s.data with
  | [] => []
  | _ :: rest => (splitOnChar sep rest).map recoverPiece

/-- The characters of one rendered entry. -/
def entryData (kv : String × Option String) : List Char :=
  (paramEntryString kv.1 kv.2).data

/-- Modelled from the spec, as literally stated by the round-trip claim:
re-split a rendered parameter collection on the separator and then on
`=`, with no unquoting of values. -/
def recoverParamsPlain (s : String) (sep : Char) : Params :=
  match s.data with
  | [] => []
  | _ :: rest =>
    (splitOnChar sep rest).map fun piece =>
      let kv := splitAtEq piece
      (String.mk kv.1, kv.2.map String.mk)

/-- An entry that the rendered text can represent unambiguously for a
given separator: its key contains neither the separator nor `=`, and a
present value contains no separator and, when rendered unquoted (no ABNF
whitespace), is not itself wrapped in double quotes. -/
def wellFormedEntry (sep : Char) (kv : String × Option String) : Bool :=
  !kv.1.data.contains sep && !kv.1.data.contains '=' &&
  (match kv.2 with
   | none => true
   | some v =>
     !v.data.contains sep &&
     (containsAny v ABNF_WS || !quoteWrapped v.data))

/-- The Go-map invariant for both parameter collections of a SIP URI. -/
abbrev validSipUri (uri : SipUri) : Prop :=
  keysNodup uri.UriParams ∧ keysNodup uri.Headers

/-- The Go-map invariant for a URI of either variant. -/
def validUri : Uri → Prop
  | Uri.sip uri => validSipUri uri
  | Uri.wildcard => True

/-- The URI `sip:a@b.com` (no port declared). -/
def uriNoPort : SipUri :=
  ⟨false, some "a", none, "b.com", none, [], []⟩

/-- The URI `sip:a@b.com:5060` (the default port declared explicitly). -/
def uriWithDefaultPort : SipUri :=
  ⟨false, some "a", none, "b.com", some 5060, [], []⟩

/-- The two-hop Via sequence of the rendering example. -/
def exampleVia : ViaHeader :=
  [⟨"SIP", "2.0", "UDP", "bigbox.example.com", none, []⟩,
   ⟨"SIP", "2.0", "UDP", "pc33.example.com", some 5060, []⟩]

/-- A URI with no user part (used to exercise the password-without-user
case). -/
def uriNoUser : SipUri :=
  ⟨true, none, none, "h.com", some 80, [("transport", some "udp")], []⟩

/-- The tail of a rendered parameter collection: separator then entry,
for each remaining entry. -/
def restString (sep : Char) : Params → String
  | [] => ""
  | kv :: rest => String.singleton sep ++ paramEntryString kv.1 kv.2 ++ restString sep rest

theorem strPtrEq_iff (a b : Option String) : strPtrEq a b = true ↔ a = b := by
  cases a <;> cases b <;> simp [strPtrEq]

theorem uint16PtrEq_iff (a b : Option Nat) : uint16PtrEq a b = true ↔ a = b := by
  cases a <;> cases b <;> simp [uint16PtrEq]

theorem keysNodup_cons {kv : String × Option String} {l : Params} (h : keysNodup (kv :: l)) :
    kv.1 ∉ keys l ∧ keysNodup l := by
  simpa [keysNodup, keys] using h

theorem mem_keys_of_mem {l : Params} {kv : String × Option String} (h : kv ∈ l) :
    kv.1 ∈ keys l :=
  List.mem_map_of_mem Prod.fst h

theorem lookup_eq_some_of_mem {l : Params} {k : String} {v : Option String}
    (hnd : keysNodup l) (hmem : (k, v) ∈ l) : l.lookup k = some v := by
  induction l with
  | nil => cases hmem
  | cons kv rest ih =>
    obtain ⟨hout, hrest⟩ := keysNodup_cons hnd
    rcases List.mem_cons.1 hmem with heq | htail
    · cases heq
      simp [List.lookup]
    · have hne : k ≠ kv.1 := by
        intro hk
        exact hout (hk ▸ mem_keys_of_mem htail)
      have hbeq : (k == kv.1) = false := by simp [hne]
      simpa [List.lookup, hbeq] using ih hrest htail

theorem mem_of_lookup_eq_some {l : Params} {k : String} {v : Option String}
    (h : l.lookup k = some v) : (k, v) ∈ l := by
  induction l with
  | nil => simp [List.lookup] at h
  | cons kv rest ih =>
    by_cases hk : k = kv.1
    · subst hk
      simp [List.lookup] at h
      simp [← h]
    · have hbeq : (k == kv.1) = false := by simp [hk]
      simp only [List.lookup, hbeq] at h
      exact List.mem_cons_of_mem _ (ih h)

theorem lookup_eq_none_iff {l : Params} {k : String} :
    l.lookup k = none ↔ k ∉ keys l := by
  induction l with
  | nil => simp [List.lookup, keys]
  | cons kv rest ih =>
    by_cases hk : k = kv.1
    · subst hk
      simp [List.lookup, keys]
    · have hbeq : (k == kv.1) = false := by simp [hk]
      simp only [List.lookup, hbeq]
      rw [ih]
      simp [keys, hk]

theorem mem_keys_iff_lookup {l : Params} {k : String} :
    k ∈ keys l ↔ l.lookup k ≠ none := by
  rw [Ne, lookup_eq_none_iff, not_not]

/-- `paramsEqual` decides pointwise equality of the lookup functions, as
long as both collections satisfy the Go-map invariant. -/
theorem paramsEqual_iff_lookup {a b : Params} (ha : keysNodup a) (hb : keysNodup b) :
    paramsEqual a b = true ↔ ∀ k, a.lookup k = b.lookup k := by
  constructor
  · intro h k
    rw [paramsEqual] at h
    split at h
    · exact absurd h (by simp)
    · rename_i hlen
      have hlen : a.length = b.length := by
        simpa using hlen
      rw [List.all_eq_true] at h
      have hsub : keys a ⊆ keys b := by
        intro x hx
        obtain ⟨⟨k', v'⟩, hmem, hfst⟩ := List.mem_map.1 hx
        have := h _ hmem
        rcases hlk : List.lookup k' b with _ | bv
        · simp [hlk] at this
        · subst hfst
          exact mem_keys_iff_lookup.2 (by simp [hlk])
      have hperm : List.Perm (keys a) (keys b) := by
        refine (List.Nodup.subperm ha hsub).perm_of_length_le ?_
        simp [keys, hlen]
      rcases hlk : List.lookup k a with _ | av
      · have hkb : k ∉ keys b := by
          intro hkb
          exact (lookup_eq_none_iff.1 hlk) (hperm.mem_iff.2 hkb)
        exact (lookup_eq_none_iff.2 hkb).symm
      · have hmem := mem_of_lookup_eq_some hlk
        have := h _ hmem
        rcases hlkb : List.lookup k b with _ | bv
        · simp [hlkb] at this
        · simp only [hlkb] at this
          have : av = bv := (strPtrEq_iff _ _).1 this
          rw [this]
  · intro h
    have hkeys : ∀ x, x ∈ keys a ↔ x ∈ keys b := by
      intro x
      rw [mem_keys_iff_lookup, mem_keys_iff_lookup, h x]
    have hperm : List.Perm (keys a) (keys b) :=
      (List.perm_ext_iff_of_nodup ha hb).2 hkeys
    have hlen : a.length = b.length := by
      have := hperm.length_eq
      simpa [keys] using this
    rw [paramsEqual]
    split
    · rename_i hne
      simp [hlen] at hne
    · rw [List.all_eq_true]
      rintro ⟨k, v⟩ hmem
      have hka : List.lookup k a = some v := lookup_eq_some_of_mem ha hmem
      have hkb : List.lookup k b = some v := (h k) ▸ hka
      simp [hkb, strPtrEq_iff]

theorem keysNodup_of_perm {a a' : Params} (ha : keysNodup a) (hp : List.Perm a a') :
    keysNodup a' :=
  (hp.map Prod.fst).nodup ha

theorem lookup_of_perm {a a' : Params} (ha : keysNodup a) (hp : List.Perm a a')
    (k : String) : a.lookup k = a'.lookup k := by
  have ha' : keysNodup a' := keysNodup_of_perm ha hp
  rcases hlk : List.lookup k a with _ | v
  · have : k ∉ keys a := lookup_eq_none_iff.1 hlk
    have : k ∉ keys a' := fun hk => this ((hp.map Prod.fst).mem_iff.2 hk)
    exact (lookup_eq_none_iff.2 this).symm
  · have hmem : (k, v) ∈ a' := hp.mem_iff.1 (mem_of_lookup_eq_some hlk)
    exact (lookup_eq_some_of_mem ha' hmem).symm

theorem bool_chain_iff (r p q : Bool) :
    (if !r then false else if !p then false else if !q then false else true) = true ↔
      r = true ∧ p = true ∧ q = true := by
  cases r <;> cases p <;> cases q <;> simp

/-- The semantic content of `SipUri.Equals` against another SIP URI:
field-wise equality plus pointwise equality of both parameter lookups. -/
theorem sipEquals_iff {a b : SipUri}
    (ha1 : keysNodup a.UriParams) (ha2 : keysNodup a.Headers)
    (hb1 : keysNodup b.UriParams) (hb2 : keysNodup b.Headers) :
    SipUri.Equals a (Uri.sip b) = true ↔
      (a.IsEncrypted = b.IsEncrypted ∧ a.User = b.User ∧ a.Password = b.Password ∧
       a.Host = b.Host ∧ a.Port = b.Port ∧
       (∀ k, a.UriParams.lookup k = b.UriParams.lookup k) ∧
       (∀ k, a.Headers.lookup k = b.Headers.lookup k)) := by
  show (if !(_ && _ && _ && _ && _) then false
        else if !paramsEqual a.UriParams b.UriParams then false
        else if !paramsEqual a.Headers b.Headers then false
        else true) = true ↔ _
  rw [bool_chain_iff]
  simp only [Bool.and_eq_true, beq_iff_eq, strPtrEq_iff, uint16PtrEq_iff,
    paramsEqual_iff_lookup ha1 hb1, paramsEqual_iff_lookup ha2 hb2]
  tauto

/-- Claim C1: `SipUri.Equals` is false against a non-SIP URI, and against
a SIP URI it holds exactly when the encryption flag, optional user,
optional password, host (exact string equality), and optional port agree
and both parameter collections are pairwise equal (same lookup for every
key, `none` meaning the key is absent); in particular `sip:a@b.com` and
`sip:a@b.com:5060` are not equal. -/
theorem sipUri_Equals_spec (a b : SipUri)
    (ha1 : keysNodup a.UriParams) (ha2 : keysNodup a.Headers)
    (hb1 : keysNodup b.UriParams) (hb2 : keysNodup b.Headers) :
    SipUri.Equals a Uri.wildcard = false ∧
    (SipUri.Equals a (Uri.sip b) = true ↔
      (a.IsEncrypted = b.IsEncrypted ∧ a.User = b.User ∧ a.Password = b.Password ∧
       a.Host = b.Host ∧ a.Port = b.Port ∧
       (∀ k, a.UriParams.lookup k = b.UriParams.lookup k) ∧
       (∀ k, a.Headers.lookup k = b.Headers.lookup k))) ∧
    SipUri.Equals uriNoPort (Uri.sip uriWithDefaultPort) = false :=
  ⟨rfl, sipEquals_iff ha1 ha2 hb1 hb2, by decide⟩

theorem sipUri_Equals_spec_witness :
    SipUri.Equals uriNoPort Uri.wildcard = false ∧
    (SipUri.Equals uriNoPort (Uri.sip uriWithDefaultPort) = true ↔
      (uriNoPort.IsEncrypted = uriWithDefaultPort.IsEncrypted ∧
       uriNoPort.User = uriWithDefaultPort.User ∧
       uriNoPort.Password = uriWithDefaultPort.Password ∧
       uriNoPort.Host = uriWithDefaultPort.Host ∧
       uriNoPort.Port = uriWithDefaultPort.Port ∧
       (∀ k, List.lookup k uriNoPort.UriParams = List.lookup k uriWithDefaultPort.UriParams) ∧
       (∀ k, List.lookup k uriNoPort.Headers = List.lookup k uriWithDefaultPort.Headers))) ∧
    SipUri.Equals uriNoPort (Uri.sip uriWithDefaultPort) = false :=
  sipUri_Equals_spec uriNoPort uriWithDefaultPort (by decide) (by decide) (by decide) (by decide)

/-- Claim C2: `paramsEqual` holds exactly when both collections bind the
same keys to the same value-or-absence (pointwise-equal lookups, `none`
meaning the key is absent), and its result is unchanged when either side
is reordered (so it does not depend on map iteration or insertion
order). -/
theorem paramsEqual_spec (A B : Params) (hA : keysNodup A) (hB : keysNodup B) :
    (paramsEqual A B = true ↔ ∀ k, A.lookup k = B.lookup k) ∧
    (∀ C D, List.Perm A C → List.Perm B D → paramsEqual C D = paramsEqual A B) := by
  refine ⟨paramsEqual_iff_lookup hA hB, ?_⟩
  intro C D hpa hpb
  have hC := keysNodup_of_perm hA hpa
  have hD := keysNodup_of_perm hB hpb
  rw [Bool.eq_iff_iff, paramsEqual_iff_lookup hC hD, paramsEqual_iff_lookup hA hB]
  constructor
  · intro h k
    rw [lookup_of_perm hA hpa k, lookup_of_perm hB hpb k]
    exact h k
  · intro h k
    rw [← lookup_of_perm hA hpa k, ← lookup_of_perm hB hpb k]
    exact h k

theorem paramsEqual_spec_witness :
    (paramsEqual [(("a" : String), some "1"), ("b", none)]
        [(("b" : String), none), ("a", some "1")] = true ↔
      ∀ k, List.lookup k [(("a" : String), some "1"), ("b", none)] =
        List.lookup k [(("b" : String), none), ("a", some "1")]) ∧
    (∀ C D, List.Perm [(("a" : String), some "1"), ("b", none)] C →
      List.Perm [(("b" : String), none), ("a", some "1")] D →
      paramsEqual C D =
        paramsEqual [(("a" : String), some "1"), ("b", none)]
          [(("b" : String), none), ("a", some "1")]) :=
  paramsEqual_spec [(("a" : String), some "1"), ("b", none)]
    [(("b" : String), none), ("a", some "1")] (by decide) (by decide)

theorem paramsToStringAux_false (start sep : Char) :
    ∀ (l : Params) (buffer : String),
      paramsToStringAux start sep l buffer false = buffer ++ restString sep l := by
  intro l
  induction l with
  | nil =>
    intro buffer
    simp [paramsToStringAux, restString]
  | cons kv rest ih =>
    intro buffer
    show paramsToStringAux start sep rest
        (buffer ++ (if false then String.singleton start else String.singleton sep)
          ++ paramEntryString kv.1 kv.2) false = _
    rw [ih]
    simp [restString, String.append_assoc]

theorem restString_joinSep (sep : Char) :
    ∀ (l : Params) (x : String),
      x ++ restString sep l =
        joinSep (String.singleton sep) (x :: l.map fun kv => paramEntryString kv.1 kv.2) := by
  intro l
  induction l with
  | nil =>
    intro x
    simp [restString, joinSep]
  | cons kv rest ih =>
    intro x
    have hj : joinSep (String.singleton sep)
        (x :: paramEntryString kv.1 kv.2 :: rest.map fun kv => paramEntryString kv.1 kv.2) =
        x ++ String.singleton sep ++ joinSep (String.singleton sep)
          (paramEntryString kv.1 kv.2 :: rest.map fun kv => paramEntryString kv.1 kv.2) := rfl
    rw [List.map_cons, hj, ← ih (paramEntryString kv.1 kv.2)]
    simp [restString, String.append_assoc]

/-- Claim C3: an empty collection renders as the empty string; a
non-empty one renders as the start character, then one entry per
parameter (`key` for an absent value, `key="value"` for a value holding
ABNF whitespace, else `key=value`), with exactly one separator between
consecutive entries and none after the start character or at the end. -/
theorem ParamsToString_spec (params : Params) (start sep : Char) :
    (params = [] → ParamsToString params start sep = "") ∧
    (params ≠ [] →
      ParamsToString params start sep =
        String.singleton start ++
          joinSep (String.singleton sep)
            (params.map fun kv =>
              match kv.2 with
              | none => kv.1
              | some v =>
                if containsAny v ABNF_WS then kv.1 ++ "=\"" ++ v ++ "\""
                else kv.1 ++ "=" ++ v)) := by
  constructor
  · rintro rfl
    rfl
  · intro hne
    obtain ⟨kv, rest, rfl⟩ : ∃ kv rest, params = kv :: rest := by
      cases params with
      | nil => exact absurd rfl hne
      | cons kv rest => exact ⟨kv, rest, rfl⟩
    show paramsToStringAux start sep rest
        ("" ++ (if true then String.singleton start else String.singleton sep)
          ++ paramEntryString kv.1 kv.2) false =
      String.singleton start ++
        joinSep (String.singleton sep) ((kv :: rest).map fun kv => paramEntryString kv.1 kv.2)
    rw [paramsToStringAux_false, List.map_cons, ← restString_joinSep]
    simp [String.append_assoc, String.empty_append]

theorem ParamsToString_spec_witness :
    ParamsToString [] ';' '&' = "" ∧
    ParamsToString [(("k" : String), some "a b")] ';' '&' = ";k=\"a b\"" ∧
    ParamsToString [(("k" : String), some "ab"), ("lr", none)] ';' '&' = ";k=ab&lr" := by
  refine ⟨(ParamsToString_spec [] ';' '&').1 rfl, ?_, ?_⟩
  · rw [(ParamsToString_spec [(("k" : String), some "a b")] ';' '&').2 (by decide)]
    decide
  · rw [(ParamsToString_spec [(("k" : String), some "ab"), ("lr", none)] ';' '&').2 (by decide)]
    decide

/-- Claim C4: `SipUri.String` renders scheme token and `:`, then (only
when a user is present) the user, `:password` only when a password is
also present, and `@`; then host, `:port` when a port is present, the URI
parameters with start/sep `;`, and the header parameters with start `?`
sep `&`. A password set without a user is silently ignored: rendering
still succeeds and emits the same string as with no password. -/
theorem sipUri_String_spec (uri : SipUri) :
    SipUri.String uri =
      ((if uri.IsEncrypted then "sips" else "sip") ++ ":")
      ++ (match uri.User with
          | some user =>
            user
            ++ (match uri.Password with
                | some password => ":" ++ password
                | none => "")
            ++ "@"
          | none => "")
      ++ uri.Host
      ++ (match uri.Port with
          | some port => ":" ++ Nat.repr port
          | none => "")
      ++ ParamsToString uri.UriParams ';' ';'
      ++ ParamsToString uri.Headers '?' '&' ∧
    (uri.User = none → ∀ password,
      SipUri.String { uri with Password := some password } =
        SipUri.String { uri with Password := none }) := by
  obtain ⟨enc, user, pw, host, port, up, hd⟩ := uri
  constructor
  · cases enc <;> rfl
  · rintro rfl password
    rfl

theorem sipUri_String_spec_witness :
    SipUri.String { uriNoUser with Password := some "hunter2" } =
      SipUri.String { uriNoUser with Password := none } :=
  (sipUri_String_spec uriNoUser).2 rfl "hunter2"

/-- Claim C6: the wildcard URI renders as `*`, equals exactly the
wildcard URI (so wildcard-vs-SIP comparison is false in both directions),
and reports `IsWildcard` true, while a SIP URI reports it false. -/
theorem wildcardUri_spec :
    Uri.String Uri.wildcard = "*" ∧
    (∀ other : Uri, Uri.Equals Uri.wildcard other = true ↔ other = Uri.wildcard) ∧
    (∀ u : SipUri, Uri.Equals Uri.wildcard (Uri.sip u) = false ∧
      Uri.Equals (Uri.sip u) Uri.wildcard = false) ∧
    Uri.IsWildcard Uri.wildcard = true ∧
    (∀ u : SipUri, Uri.IsWildcard (Uri.sip u) = false) := by
  refine ⟨rfl, ?_, fun u => ⟨rfl, rfl⟩, rfl, fun u => rfl⟩
  intro other
  cases other <;> simp [Uri.Equals, WildcardUri.Equals]

/-- Claim C7: a Contact header renders as `Contact: `, the double-quoted
space-suffixed display name only when present, the URI in angle brackets
except for the wildcard URI which renders as a bare `*`, then the
parameter collection with start/sep `;`; the Alice example renders
exactly. -/
theorem contactHeader_String_spec (contact : ContactHeader) :
    ContactHeader.String contact =
      "Contact: "
      ++ (match contact.displayName with
          | some name => "\"" ++ name ++ "\" "
          | none => "")
      ++ (match contact.uri with
          | Uri.wildcard => "*"
          | Uri.sip uri => "<" ++ SipUri.String uri ++ ">")
      ++ ParamsToString contact.params ';' ';' ∧
    ContactHeader.String
        ⟨some "Alice", Uri.sip ⟨false, some "alice", none, "atlanta.com", none, [], []⟩, []⟩
      = "Contact: \"Alice\" <sip:alice@atlanta.com>" :=
  ⟨rfl, by decide⟩

theorem viaHops_joinSep (l : List ViaHop) (hne : l ≠ []) :
    viaHopsString l = joinSep ", " (l.map ViaHop.String) := by
  induction l with
  | nil => exact absurd rfl hne
  | cons entry rest ih =>
    cases rest with
    | nil => rfl
    | cons e2 r2 =>
      have h2 : viaHopsString (entry :: e2 :: r2) =
          ViaHop.String entry ++ ", " ++ viaHopsString (e2 :: r2) := rfl
      have h3 : joinSep ", " (ViaHop.String entry :: (e2 :: r2).map ViaHop.String) =
          ViaHop.String entry ++ ", " ++ joinSep ", " ((e2 :: r2).map ViaHop.String) := rfl
      rw [List.map_cons, h2, h3, ih (by simp)]

/-- Claim C8: each Via hop renders as
`protocolName/protocolVersion/transport host`, `:port` when the port is
present, then its parameters with start/sep `;`; a non-empty Via header
renders as `Via: ` followed by the hop renderings joined by `, ` in
sequence order, and the two-hop example renders exactly. -/
theorem viaHeader_String_spec (via : ViaHeader) (hne : via ≠ []) :
    ViaHeader.String via =
      "Via: " ++ joinSep ", "
        (via.map fun entry =>
          entry.protocolName ++ "/" ++ entry.protocolVersion ++ "/" ++ entry.transport
          ++ " " ++ entry.host
          ++ (match entry.port with
              | some port => ":" ++ Nat.repr port
              | none => "")
          ++ ParamsToString entry.params ';' ';') ∧
    ViaHeader.String exampleVia
      = "Via: SIP/2.0/UDP bigbox.example.com, SIP/2.0/UDP pc33.example.com:5060" := by
  refine ⟨?_, by decide⟩
  show "Via: " ++ viaHopsString via = _
  rw [viaHops_joinSep via hne]
  rfl

theorem viaHeader_String_spec_witness :
    (ViaHeader.String exampleVia =
      "Via: " ++ joinSep ", "
        (exampleVia.map fun entry =>
          entry.protocolName ++ "/" ++ entry.protocolVersion ++ "/" ++ entry.transport
          ++ " " ++ entry.host
          ++ (match entry.port with
              | some port => ":" ++ Nat.repr port
              | none => "")
          ++ ParamsToString entry.params ';' ';')) ∧
    ViaHeader.String exampleVia
      = "Via: SIP/2.0/UDP bigbox.example.com, SIP/2.0/UDP pc33.example.com:5060" :=
  viaHeader_String_spec exampleVia (by simp [exampleVia])

/-- Claim C9 as stated is refuted: the code renders the label `Call-Id`,
not the RFC 3261 literal `Call-ID` (at `s = "f81d4fae"` the output is
`Call-Id: f81d4fae`). -/
theorem callId_String_counterexample :
    CallId.String "f81d4fae" ≠ "Call-ID: " ++ "f81d4fae" ∧
    CallId.String "f81d4fae" = "Call-Id: " ++ "f81d4fae" := by
  constructor
  · decide
  · rfl

/-- Claim C9 (amended): for every Call-ID value `s` the rendering is the
label `Call-Id` (capital C, lowercase d), `: `, and `s` verbatim. -/
theorem callId_String_spec (s : CallId) : CallId.String s = "Call-Id: " ++ s :=
  rfl

/-- Claim C10: on URIs whose parameter collections satisfy the Go-map
invariant, `Equals` is reflexive, and symmetric across both variants (in
particular wildcard-vs-SIP is false in both directions). -/
theorem uri_Equals_refl_symm :
    (∀ a : Uri, validUri a → Uri.Equals a a = true) ∧
    (∀ a b : Uri, validUri a → validUri b → Uri.Equals a b = Uri.Equals b a) := by
  constructor
  · intro a hv
    cases a with
    | sip u =>
      exact (sipEquals_iff hv.1 hv.2 hv.1 hv.2).2
        ⟨rfl, rfl, rfl, rfl, rfl, fun _ => rfl, fun _ => rfl⟩
    | wildcard => rfl
  · intro a b hva hvb
    cases a with
    | sip u =>
      cases b with
      | sip v =>
        show SipUri.Equals u (Uri.sip v) = SipUri.Equals v (Uri.sip u)
        rw [Bool.eq_iff_iff, sipEquals_iff hva.1 hva.2 hvb.1 hvb.2,
          sipEquals_iff hvb.1 hvb.2 hva.1 hva.2]
        constructor
        · rintro ⟨h1, h2, h3, h4, h5, h6, h7⟩
          exact ⟨h1.symm, h2.symm, h3.symm, h4.symm, h5.symm,
            fun k => (h6 k).symm, fun k => (h7 k).symm⟩
        · rintro ⟨h1, h2, h3, h4, h5, h6, h7⟩
          exact ⟨h1.symm, h2.symm, h3.symm, h4.symm, h5.symm,
            fun k => (h6 k).symm, fun k => (h7 k).symm⟩
      | wildcard => rfl
    | wildcard =>
      cases b with
      | sip v => rfl
      | wildcard => rfl

theorem uri_Equals_refl_symm_witness :
    Uri.Equals (Uri.sip uriNoUser) (Uri.sip uriNoUser) = true ∧
    Uri.Equals (Uri.sip uriNoUser) Uri.wildcard = Uri.Equals Uri.wildcard (Uri.sip uriNoUser) :=
  ⟨uri_Equals_refl_symm.1 (Uri.sip uriNoUser) ⟨by decide, by decide⟩,
   uri_Equals_refl_symm.2 (Uri.sip uriNoUser) Uri.wildcard ⟨by decide, by decide⟩ trivial⟩

theorem splitOnChar_not_mem {sep : Char} : ∀ {l : List Char}, sep ∉ l →
    splitOnChar sep l = [l] := by
  intro l
  induction l with
  | nil => intro _; rfl
  | cons c cs ih =>
    intro h
    have hc : ¬ c = sep := fun hc => h (hc ▸ List.mem_cons_self c cs)
    have hcs : sep ∉ cs := fun hm => h (List.mem_cons_of_mem c hm)
    rw [splitOnChar, if_neg hc, ih hcs]

theorem splitOnChar_append_cons {sep : Char} : ∀ {xs : List Char} (ys : List Char),
    sep ∉ xs → splitOnChar sep (xs ++ sep :: ys) = xs :: splitOnChar sep ys := by
  intro xs
  induction xs with
  | nil =>
    intro ys _
    rw [List.nil_append, splitOnChar, if_pos rfl]
  | cons c cs ih =>
    intro ys h
    have hc : ¬ c = sep := fun hc => h (hc ▸ List.mem_cons_self c cs)
    have hcs : sep ∉ cs := fun hm => h (List.mem_cons_of_mem c hm)
    rw [List.cons_append, splitOnChar, if_neg hc, ih ys hcs]

theorem splitOnChar_intercalateChar {sep : Char} : ∀ {ps : List (List Char)}, ps ≠ [] →
    (∀ p ∈ ps, sep ∉ p) → splitOnChar sep (intercalateChar sep ps) = ps := by
  intro ps
  induction ps with
  | nil => intro h; exact absurd rfl h
  | cons p rest ih =>
    intro _ hall
    cases rest with
    | nil =>
      show splitOnChar sep p = [p]
      exact splitOnChar_not_mem (hall p (List.mem_cons_self p []))
    | cons p2 r2 =>
      have hstep : intercalateChar sep (p :: p2 :: r2) =
          p ++ sep :: intercalateChar sep (p2 :: r2) := rfl
      rw [hstep, splitOnChar_append_cons _ (hall p (List.mem_cons_self p _)),
        ih (by simp) fun q hq => hall q (List.mem_cons_of_mem p hq)]

theorem splitAtEq_no_eq : ∀ {l : List Char}, '=' ∉ l → splitAtEq l = (l, none) := by
  intro l
  induction l with
  | nil => intro _; rfl
  | cons c cs ih =>
    intro h
    have hc : ¬ c = '=' := fun hc => h (hc ▸ List.mem_cons_self c cs)
    have hcs : '=' ∉ cs := fun hm => h (List.mem_cons_of_mem c hm)
    rw [splitAtEq, if_neg hc, ih hcs]

theorem splitAtEq_append : ∀ {k : List Char} (v : List Char),
    '=' ∉ k → splitAtEq (k ++ '=' :: v) = (k, some v) := by
  intro k
  induction k with
  | nil =>
    intro v _
    rw [List.nil_append, splitAtEq, if_pos rfl]
  | cons c cs ih =>
    intro v h
    have hc : ¬ c = '=' := fun hc => h (hc ▸ List.mem_cons_self c cs)
    have hcs : '=' ∉ cs := fun hm => h (List.mem_cons_of_mem c hm)
    rw [List.cons_append, splitAtEq, if_neg hc, ih v hcs]

theorem quoteWrapped_quote (v : List Char) :
    quoteWrapped ('"' :: v ++ ['"']) = true := by
  have hsplit : ('"' :: v ++ ['"']) = ('"' :: v) ++ ['"'] := rfl
  have hlast : ('"' :: v ++ ['"']).getLast? = some '"' := by
    rw [hsplit, List.getLast?_concat]
  simp only [quoteWrapped, hlast, Bool.and_eq_true, beq_iff_eq, decide_eq_true_eq,
    List.length_cons, List.length_append, List.length_singleton, List.head?_cons]
  refine ⟨⟨?_, ?_⟩, ?_⟩ <;> first
  | omega
  | rfl
  | trivial

theorem unquote_quote (v : List Char) : unquote ('"' :: v ++ ['"']) = v := by
  have h : unquote ('"' :: v ++ ['"']) =
      if quoteWrapped ('"' :: v ++ ['"']) then (('"' :: v ++ ['"']).drop 1).dropLast
      else ('"' :: v ++ ['"']) := rfl
  rw [h, if_pos (quoteWrapped_quote v)]
  show (v ++ ['"']).dropLast = v
  exact List.dropLast_concat

theorem unquote_not_wrapped {l : List Char} (h : quoteWrapped l = false) :
    unquote l = l := by
  have heq : unquote l = if quoteWrapped l then (l.drop 1).dropLast else l := rfl
  rw [heq, h]
  rfl

theorem entryData_none (k : String) : entryData (k, none) = k.data :=
  rfl

theorem entryData_some_nws (k : String) {v : String} (h : containsAny v ABNF_WS = false) :
    entryData (k, some v) = k.data ++ '=' :: v.data := by
  have he : entryData (k, some v) =
      (if containsAny v ABNF_WS then k ++ "=\"" ++ v ++ "\"" else k ++ "=" ++ v).data := rfl
  rw [he, h]
  show ((k ++ "=") ++ v).data = _
  rw [String.data_append, String.data_append]
  have hq : ("=" : String).data = ['='] := rfl
  rw [hq]
  simp [List.append_assoc]

theorem entryData_some_ws (k : String) {v : String} (h : containsAny v ABNF_WS = true) :
    entryData (k, some v) = k.data ++ '=' :: '"' :: (v.data ++ ['"']) := by
  have he : entryData (k, some v) =
      (if containsAny v ABNF_WS then k ++ "=\"" ++ v ++ "\"" else k ++ "=" ++ v).data := rfl
  rw [he, h]
  show (((k ++ "=\"") ++ v) ++ "\"").data = _
  rw [String.data_append, String.data_append, String.data_append]
  have hq : ("=\"" : String).data = ['=', '"'] := rfl
  have hq2 : ("\"" : String).data = ['"'] := rfl
  rw [hq, hq2]
  simp [List.append_assoc]

theorem wellFormedEntry_parts {sep : Char} {k : String} {v : Option String}
    (h : wellFormedEntry sep (k, v) = true) :
    sep ∉ k.data ∧ '=' ∉ k.data ∧
    (∀ w, v = some w → sep ∉ w.data ∧
      (containsAny w ABNF_WS = false → quoteWrapped w.data = false)) := by
  cases v with
  | none =>
    simp only [wellFormedEntry, Bool.and_eq_true, Bool.not_eq_true'] at h
    obtain ⟨⟨h1, h2⟩, _⟩ := h
    simp at h1 h2
    exact ⟨h1, h2, fun w hw => by cases hw⟩
  | some w =>
    simp only [wellFormedEntry, Bool.and_eq_true, Bool.not_eq_true', Bool.or_eq_true] at h
    obtain ⟨⟨h1, h2⟩, h3, h4⟩ := h
    simp at h1 h2 h3
    refine ⟨h1, h2, fun w' hw => ?_⟩
    cases hw
    refine ⟨h3, fun hws => ?_⟩
    rcases h4 with h4 | h4
    · rw [h4] at hws
      cases hws
    · simpa using h4

theorem recoverPiece_entryData {sep : Char} {kv : String × Option String}
    (hwf : wellFormedEntry sep kv = true) :
    recoverPiece (entryData kv) = kv := by
  obtain ⟨k, v⟩ := kv
  obtain ⟨hk1, hk2, hv⟩ := wellFormedEntry_parts hwf
  cases v with
  | none =>
    rw [entryData_none]
    show (String.mk (splitAtEq k.data).1,
      ((splitAtEq k.data).2).map fun v => String.mk (unquote v)) = (k, none)
    rw [splitAtEq_no_eq hk2]
    rfl
  | some v =>
    obtain ⟨hvs, hvq⟩ := hv v rfl
    cases hws : containsAny v ABNF_WS with
    | false =>
      rw [entryData_some_nws k hws]
      show (String.mk (splitAtEq (k.data ++ '=' :: v.data)).1,
        ((splitAtEq (k.data ++ '=' :: v.data)).2).map fun v => String.mk (unquote v)) = (k, some v)
      rw [splitAtEq_append _ hk2]
      show (String.mk k.data, some (String.mk (unquote v.data))) = (k, some v)
      rw [unquote_not_wrapped (hvq hws)]
    | true =>
      rw [entryData_some_ws k hws]
      show (String.mk (splitAtEq (k.data ++ '=' :: '"' :: (v.data ++ ['"']))).1,
        ((splitAtEq (k.data ++ '=' :: '"' :: (v.data ++ ['"']))).2).map
          fun v => String.mk (unquote v)) = (k, some v)
      rw [splitAtEq_append _ hk2]
      show (String.mk k.data, some (String.mk (unquote ('"' :: v.data ++ ['"'])))) = (k, some v)
      rw [unquote_quote]

theorem sep_not_mem_entryData {sep : Char} {kv : String × Option String}
    (hq : sep ≠ '"') (he : sep ≠ '=') (hwf : wellFormedEntry sep kv = true) :
    sep ∉ entryData kv := by
  obtain ⟨k, v⟩ := kv
  obtain ⟨hk1, hk2, hv⟩ := wellFormedEntry_parts hwf
  cases v with
  | none =>
    rw [entryData_none]
    exact hk1
  | some v =>
    obtain ⟨hvs, hvq⟩ := hv v rfl
    cases hws : containsAny v ABNF_WS with
    | false =>
      rw [entryData_some_nws k hws]
      simp [List.mem_append, hk1, hvs, he]
    | true =>
      rw [entryData_some_ws k hws]
      simp [List.mem_append, hk1, hvs, he, hq]

theorem paramsToString_cons (kv : String × Option String) (rest : Params) (start sep : Char) :
    ParamsToString (kv :: rest) start sep =
      String.singleton start ++
        joinSep (String.singleton sep) ((kv :: rest).map fun kv => paramEntryString kv.1 kv.2) := by
  show paramsToStringAux start sep rest
      ("" ++ (if true then String.singleton start else String.singleton sep)
        ++ paramEntryString kv.1 kv.2) false = _
  rw [paramsToStringAux_false, List.map_cons, ← restString_joinSep]
  simp [String.append_assoc, String.empty_append]

theorem joinSep_data (sep : Char) : ∀ (ss : List String),
    (joinSep (String.singleton sep) ss).data = intercalateChar sep (ss.map String.data) := by
  intro ss
  induction ss with
  | nil => rfl
  | cons x rest ih =>
    cases rest with
    | nil => rfl
    | cons y r2 =>
      have hj : joinSep (String.singleton sep) (x :: y :: r2) =
          x ++ String.singleton sep ++ joinSep (String.singleton sep) (y :: r2) := rfl
      have hi : intercalateChar sep (x.data :: (y :: r2).map String.data) =
          x.data ++ sep :: intercalateChar sep ((y :: r2).map String.data) := rfl
      have hs : (String.singleton sep).data = [sep] := rfl
      rw [List.map_cons, hj, hi, String.data_append, String.data_append, ih, hs]
      simp [List.append_assoc]

theorem paramsToString_data (kv : String × Option String) (rest : Params) (start sep : Char) :
    (ParamsToString (kv :: rest) start sep).data =
      start :: intercalateChar sep ((kv :: rest).map entryData) := by
  rw [paramsToString_cons, String.data_append, joinSep_data]
  have hs : (String.singleton start).data = [start] := rfl
  rw [hs, List.map_map]
  rfl

theorem recoverParams_data {s : String} {c : Char} {cs : List Char} (h : s.data = c :: cs)
    (sep : Char) :
    recoverParams s sep = (splitOnChar sep cs).map recoverPiece := by
  unfold recoverParams
  rw [h]

theorem map_recoverPiece_entryData {sep : Char} : ∀ (l : Params),
    (∀ kv ∈ l, wellFormedEntry sep kv = true) →
    (l.map entryData).map recoverPiece = l := by
  intro l
  induction l with
  | nil => intro _; rfl
  | cons kv rest ih =>
    intro h
    rw [List.map_cons, List.map_cons,
      recoverPiece_entryData (h kv (List.mem_cons_self kv rest)),
      ih fun x hx => h x (List.mem_cons_of_mem kv hx)]

/-- Claim C5 as stated is refuted: re-splitting the rendered text only on
the separator and on `=` returns a quoted value verbatim, quotes
included. For the collection `k ↦ "a b"` rendered with start `;` and
separator `;`, the recovered value is `"a b"` with the double quotes,
not `a b`. -/
theorem paramsRoundTrip_counterexample :
    recoverParamsPlain (ParamsToString [(("k" : String), some "a b")] ';' ';') ';'
      ≠ [(("k" : String), some "a b")] := by
  decide

/-- Claim C5 (amended): for well-formed entries — no key contains the
separator or `=`, no present value contains the separator, and no value
rendered unquoted is itself wrapped in double quotes — and a separator
other than `"` and `=`, re-splitting the rendered string (dropping the
start character, splitting on the separator, splitting each piece at its
first `=`, and unquoting each recovered value) recovers exactly the keys
and per-key value-or-absence the collection was built from. -/
theorem paramsRoundTrip (params : Params) (start sep : Char)
    (hq : sep ≠ '"') (he : sep ≠ '=')
    (hwf : ∀ kv ∈ params, wellFormedEntry sep kv = true) :
    recoverParams (ParamsToString params start sep) sep = params := by
  cases params with
  | nil => rfl
  | cons kv rest =>
    have hdata := paramsToString_data kv rest start sep
    have hall : ∀ p ∈ (kv :: rest).map entryData, sep ∉ p := by
      intro p hp
      obtain ⟨x, hx, rfl⟩ := List.mem_map.1 hp
      exact sep_not_mem_entryData hq he (hwf x hx)
    rw [recoverParams_data hdata sep, splitOnChar_intercalateChar (by simp) hall,
      map_recoverPiece_entryData _ hwf]

theorem paramsRoundTrip_witness :
    ';' ≠ '"' ∧ ';' ≠ '=' ∧
    recoverParams (ParamsToString [(("k" : String), some "a b"), ("tag", none)] ';' ';') ';'
      = [(("k" : String), some "a b"), ("tag", none)] :=
  ⟨by decide, by decide,
   paramsRoundTrip [(("k" : String), some "a b"), ("tag", none)] ';' ';'
     (by decide) (by decide) (by decide)⟩
